import Mathlib

/-!
# Thematic Coder — verification of the ingestion/reconciliation core

A shallow embedding of the data model and operations of `src/index.tsx`:
the CSV parser (`parseCsv` inside `handleResponseFileUpload`), the CSV
field escaping used on export (`escapeCsvField` in `handleDownloadCSV`),
the taxonomy (codebook) operations (`handleAddTheme`, the bulk-import
filter of `handleFileUpload`, `handleAddNewThemes`,
`handleDeleteCodebook`), and the reconciliation/merge logic of
`runAnalysis`, `handleSuggestionsComplete` and `handleFinish`.

JavaScript strings are modelled by `String`, JS objects used as string
maps by association lists in key-insertion order, JS `undefined`-able
values by `Option`, and JS string truthiness by non-emptiness.
-/

-- Decidable equality of parse results, for concrete evaluation.
deriving instance DecidableEq for Except

namespace ThematicCoder

/-- A theme (category): `type Theme = { name, description }`. -/
structure Theme where
  name : String
  description : String
deriving DecidableEq

/-- A parsed data row: a JS object mapping column name to string value,
modelled as an association list in key order. -/
abbrev Row := List (String × String)

/-- JS `row[key]`: `some` value when the key is present, `none` for
`undefined`. Association-list lookup returns the first binding, which
matches the JS object when keys are distinct (the parser produces one
binding per header). -/
def rowGet? (row : Row) (key : String) : Option String :=
  List.lookup key row

/-- JS `s.trim()`: strip leading and trailing whitespace (space, tab,
carriage return, line feed — the whitespace characters that occur in
this development; JS also strips other Unicode space characters). -/
def jsTrim (s : String) : String :=
  ⟨((s.data.dropWhile Char.isWhitespace).reverse.dropWhile Char.isWhitespace).reverse⟩

/-- JS `s.toLowerCase()` (ASCII letters; JS also lowercases other
Unicode letters). -/
def toLowerCase (s : String) : String :=
  ⟨s.data.map Char.toLower⟩

/-- JS `s.split(sep)` for a one-character separator: n separators yield
n+1 (possibly empty) pieces. -/
def splitOnCharAux (sep : Char) : List Char → List Char → List (List Char)
  | [], cur => [cur]
  | c :: rest, cur =>
      if c = sep then cur :: splitOnCharAux sep rest []
      else splitOnCharAux sep rest (cur ++ [c])

/-- The pieces of `s` between occurrences of `sep`, as strings. -/
def splitOnChar (sep : Char) (s : String) : List String :=
  (splitOnCharAux sep s.data []).map fun cs => ⟨cs⟩

/-! ## Tabular parser (`parseCsv`, src/index.tsx lines 749–799) -/

/-- Line splitting of `csvText.trim().split(/\r\n?|\n/)`: a separator is
`\r\n`, a lone `\r`, or a lone `\n`. As with JS `split`, n separators
yield n+1 (possibly empty) pieces. -/
def splitLinesChars : List Char → List Char → List (List Char)
  | [], cur => [cur]
  | '\r' :: '\n' :: rest, cur => cur :: splitLinesChars rest []
  | '\r' :: rest, cur => cur :: splitLinesChars rest []
  | '\n' :: rest, cur => cur :: splitLinesChars rest []
  | c :: rest, cur => splitLinesChars rest (cur ++ [c])

/-- The lines of a text, as strings. -/
def splitLines (s : String) : List String :=
  (splitLinesChars s.data []).map fun cs => ⟨cs⟩

/-- The quote-aware field scanner `parseLine` of `parseCsv`: one pass over
the characters with an in-quotes flag and a field buffer; `""` inside a
quoted field decodes to `"`, a comma outside quotes ends the field. -/
def parseLineChars : List Char → Bool → List Char → List (List Char)
  | [], _, field => [field]
  | '"' :: '"' :: rest2, true, field => parseLineChars rest2 true (field ++ ['"'])
  | '"' :: rest, true, field => parseLineChars rest false field
  | c :: rest, true, field => parseLineChars rest true (field ++ [c])
  | c :: rest, false, field =>
      if c = ',' then field :: parseLineChars rest false []
      else if c = '"' then parseLineChars rest true field
      else parseLineChars rest false (field ++ [c])

/-- `parseLine(line)`: the list of fields of one line. -/
def parseLine (line : String) : List String :=
  (parseLineChars line.data false []).map fun cs => ⟨cs⟩

/-- Row construction: `headers.forEach((header, index) => row[header] =
values[index] || '')` — the row binds every header, positionally, with
`''` when the value list is exhausted (`values[index]` is `undefined` or
the empty string). -/
def mkRowAux (values : List String) : Nat → List String → Row
  | _, [] => []
  | i, h :: hs => (h, (values.getD i "")) :: mkRowAux values (i + 1) hs

/-- The row built from a header list and the parsed values of one line. -/
def mkRow (headers values : List String) : Row :=
  mkRowAux values 0 headers

/-- `parseCsv(csvText)`: trim, split into lines, require a header line
plus at least one data line, parse the header line, then turn each
non-blank data line into a row (blank lines are skipped). -/
def parseCsv (csvText : String) : Except String (List String × List Row) :=
  let lines := splitLines (jsTrim csvText)
  if lines.length < 2 then
    .error "CSV must have a header row and at least one data row."
  else
    let headers := parseLine (lines.getD 0 "")
    let data := (lines.drop 1).filterMap fun line =>
      if (jsTrim line).data.isEmpty then none
      else some (mkRow headers (parseLine line))
    .ok (headers, data)

/-! ## Row codec, export side (`escapeCsvField` and the CSV assembly of
`handleDownloadCSV`, src/index.tsx lines 1004–1021) -/

/-- `stringField.replace(/"/g, '""')`. -/
def doubleQuotes (cs : List Char) : List Char :=
  cs.flatMap fun c => if c = '"' then ['"', '"'] else [c]

/-- The test `/[",\n]/.test(stringField)`. -/
def needsQuoting (s : String) : Bool :=
  s.data.any fun c => c = '"' || c = ',' || c = '\n'

/-- `escapeCsvField`: wrap in double quotes, doubling inner quotes, iff
the field contains a quote, a comma, or a newline. -/
def escapeCsvField (field : String) : String :=
  if needsQuoting field then "\"" ++ (⟨doubleQuotes field.data⟩ : String) ++ "\""
  else field

/-- One exported data line: the row's value for each header, escaped and
comma-joined (the `resultHeaders.map(h => escapeCsvField(row.rawData[h]))
.join(',')` stage; under this development's hypotheses every looked-up
key is present, so the JS `undefined` stringification never arises). -/
def serializeRowLine (headers : List String) (row : Row) : String :=
  String.intercalate "," (headers.map fun h => escapeCsvField ((rowGet? row h).getD ""))

/-- The export text: unescaped comma-joined header line (`headers.join(',')`)
followed by one serialized line per row, newline-joined. -/
def serializeCsv (headers : List String) (rows : List Row) : String :=
  String.intercalate "\n"
    (String.intercalate "," headers :: rows.map (serializeRowLine headers))

/-! ## Taxonomy (codebook) operations -/

/-- The case-insensitive duplicate test used throughout:
`themes.some(t => t.name.toLowerCase() === candidate.toLowerCase())`. -/
def hasNameCI (themes : List Theme) (candidate : String) : Bool :=
  themes.any fun t => toLowerCase t.name == toLowerCase candidate

/-- `handleAddTheme` (src/index.tsx lines 486–497): trims both fields,
requires both non-empty, rejects a case-insensitive name collision,
otherwise appends the trimmed theme. -/
def handleAddTheme (themes : List Theme) (newThemeName newThemeDescription : String) :
    List Theme :=
  if !(jsTrim newThemeName).data.isEmpty && !(jsTrim newThemeDescription).data.isEmpty then
    if hasNameCI themes (jsTrim newThemeName) then themes
    else themes ++ [⟨jsTrim newThemeName, jsTrim newThemeDescription⟩]
  else themes

/-- The two-column bulk parse of `handleFileUpload` (src/index.tsx lines
511–520): split on `\n`, trim each line, keep lines containing a comma,
take the part before the first comma as the name and the rest (re-joined
on commas) as the description, both trimmed, and keep entries with both
non-empty. -/
def parseThemesCsv (text : String) : List Theme :=
  ((((splitOnChar '\n' text).map jsTrim).filter fun line => line.data.contains ',').map
      fun line =>
        let parts := splitOnChar ',' line
        let name := jsTrim (parts.headD "")
        let description := jsTrim (String.intercalate "," parts.tail)
        (⟨name, description⟩ : Theme)).filter
    fun t => !t.name.data.isEmpty && !t.description.data.isEmpty

/-- The merge step of `handleFileUpload` (src/index.tsx lines 522–527):
drop parsed themes whose name collides case-insensitively with an
existing theme, then append the survivors in first-seen order. -/
def handleFileUpload (prevThemes newThemes : List Theme) : List Theme :=
  prevThemes ++ newThemes.filter fun newTheme => !(hasNameCI prevThemes newTheme.name)

/-- `handleAddNewThemes` (src/index.tsx lines 1643–1652): drop new themes
whose lowercased name is among the active themes' lowercased names, and
append the survivors (a no-op when none survive). -/
def handleAddNewThemes (activeThemes newThemes : List Theme) : List Theme :=
  let uniqueNewThemes :=
    newThemes.filter fun newTheme => !(hasNameCI activeThemes newTheme.name)
  if uniqueNewThemes.length > 0 then activeThemes ++ uniqueNewThemes else activeThemes

/-- The invariant of §3: category names within one taxonomy are pairwise
distinct under case-insensitive comparison. -/
def NamesCIUnique (themes : List Theme) : Prop :=
  (themes.map fun t => toLowerCase t.name).Nodup

instance (themes : List Theme) : Decidable (NamesCIUnique themes) := by
  unfold NamesCIUnique; infer_instance

/-! ## Annotation reconciliation (`runAnalysis`, src/index.tsx lines 840–945) -/

/-- One decoded record of the classification response
(`{originalResponse, themeName, sentiment, confidenceScore, reasoning,
suggestedTheme?}`). The confidence score is a JS number; no arithmetic
is performed on it here, so it is carried as a rational. -/
structure AnalysisRecord where
  originalResponse : String
  themeName : String
  sentiment : String
  confidenceScore : ℚ
  reasoning : String
  suggestedTheme : Option Theme
deriving DecidableEq

/-- `type CodingResult` (an AnnotationResult): `rawData` is `Option`al
because the JS lookup `uploadedData.find(...) || uploadedData[index]`
can produce `undefined` when both sides miss. -/
structure CodingResult where
  themeName : String
  sentiment : String
  confidenceScore : ℚ
  reasoning : String
  responseColumn : String
  suggestedTheme : Option Theme
  rawData : Option Row
deriving DecidableEq

/-- The row-matching step of `runAnalysis` (lines 904–916): for the
record at position `index`, take the first uploaded row whose
response-column value strictly equals the record's `originalResponse`
(`uploadedData.find(d => d[responseColumn] === r.originalResponse)`),
falling back to `uploadedData[index]` when no row matches. -/
def reconcile (uploadedData : List Row) (responseColumn : String)
    (records : List AnalysisRecord) : List CodingResult :=
  records.enum.map fun p =>
    let r := p.2
    let originalDataRow :=
      (uploadedData.find? fun d => rowGet? d responseColumn == some r.originalResponse).orElse
        fun _ => uploadedData.get? p.1
    { themeName := r.themeName
      sentiment := r.sentiment
      confidenceScore := r.confidenceScore
      reasoning := r.reasoning
      suggestedTheme := r.suggestedTheme
      rawData := originalDataRow
      responseColumn := responseColumn }

/-- The suggestion filter (line 918): `r.suggestedTheme &&
r.suggestedTheme.name && r.suggestedTheme.description` — a present
suggestion with non-empty name and non-empty description. -/
def isSuggestion (r : CodingResult) : Bool :=
  match r.suggestedTheme with
  | some t => !t.name.data.isEmpty && !t.description.data.isEmpty
  | none => false

/-- The immediate-finalization filter (line 919): `!r.suggestedTheme ||
!r.suggestedTheme.name` — no suggestion, or one with an empty name. -/
def isRegular (r : CodingResult) : Bool :=
  match r.suggestedTheme with
  | some t => t.name.data.isEmpty
  | none => true

/-- The append/replace decision of a run. -/
inductive AnalysisMode
  | replace
  | append
deriving DecidableEq

/-- The `AnalysisPage` state touched by `runAnalysis` and
`handleSuggestionsComplete`. -/
structure AnalysisState where
  results : List CodingResult
  uploadedData : List Row
  dataHeaders : List String
  responseColumn : String
  pendingResults : List CodingResult
  suggestedThemes : List CodingResult
  analysisMode : Option AnalysisMode
  errorMsg : Option String
  isSuggestionModalOpen : Bool
deriving DecidableEq

/-- `runAnalysis(mode)` after the service call, parametrized by the
decoded response (`JSON.parse` outcome): on decode/service failure only
the error message is set (the catch block); on success the records are
reconciled, split into suggestions and regular results, regular results
are merged now (no suggestions) or parked in `pendingResults`
(suggestions open the modal), and the upload buffer is cleared. -/
def runAnalysis (mode : AnalysisMode)
    (decoded : Except String (List AnalysisRecord))
    (st : AnalysisState) : AnalysisState :=
  let st1 := { st with errorMsg := none, analysisMode := some mode }
  match decoded with
  | .error msg =>
      let fullMsg :=
        "An error occurred while communicating with the API. Please try again.\nDetails: " ++ msg
      { st1 with errorMsg := some fullMsg }
  | .ok records =>
      let newResults := reconcile st.uploadedData st.responseColumn records
      let suggestions := newResults.filter isSuggestion
      let regularResults := newResults.filter isRegular
      let st2 :=
        if suggestions.length > 0 then
          { st1 with pendingResults := regularResults,
                     suggestedThemes := suggestions,
                     isSuggestionModalOpen := true }
        else
          let merged :=
            match mode with
            | .append => st1.results ++ regularResults
            | .replace => regularResults
          { st1 with results := merged, pendingResults := [] }
      { st2 with uploadedData := [], dataHeaders := [], responseColumn := "" }

/-- `handleSuggestionsComplete` (src/index.tsx lines 973–989), the
result-set half: merge the parked regular results and the processed
suggestions into the result set in one step, using the mode captured at
the start of the run, then reset the workflow state. (The taxonomy half,
`addNewThemes`, is `handleAddNewThemes` above.) -/
def handleSuggestionsComplete (processedSuggestions : List CodingResult)
    (st : AnalysisState) : AnalysisState :=
  let finalResults := st.pendingResults ++ processedSuggestions
  let merged :=
    match st.analysisMode with
    | some .append => st.results ++ finalResults
    | _ => finalResults
  { st with results := merged,
            isSuggestionModalOpen := false,
            suggestedThemes := [],
            pendingResults := [],
            analysisMode := none }

/-! ## Suggestion approval workflow (`ThemeSuggestionModal`,
src/index.tsx lines 139–191) -/

/-- `SuggestedThemeWithStatus`: one approval record of the modal. -/
structure SuggestionRecord where
  core : CodingResult
  isApproved : Bool
  editedName : String
  editedDescription : String
deriving DecidableEq

/-- The acceptance test of `handleFinish`: approved and both edited
fields non-blank after trimming. -/
def approvedOk (s : SuggestionRecord) : Bool :=
  s.isApproved && !(jsTrim s.editedName).data.isEmpty
    && !(jsTrim s.editedDescription).data.isEmpty

/-- The `finalResults` built by `handleFinish` (lines 174–191): one
result per record, in order; accepted records get the trimmed edited
name, all others get `Uncategorized`; the suggestion payload is dropped
from the result either way. -/
def handleFinishResults (processedSuggestions : List SuggestionRecord) :
    List CodingResult :=
  processedSuggestions.map fun s =>
    if approvedOk s then
      { s.core with themeName := jsTrim s.editedName, suggestedTheme := none }
    else
      { s.core with themeName := "Uncategorized", suggestedTheme := none }

/-- The `newThemes` built by `handleFinish`: one trimmed theme per
accepted record, in order. -/
def handleFinishThemes (processedSuggestions : List SuggestionRecord) :
    List Theme :=
  processedSuggestions.filterMap fun s =>
    if approvedOk s then some ⟨jsTrim s.editedName, jsTrim s.editedDescription⟩
    else none

/-! ## App-level state and cascade delete (`handleDeleteCodebook`,
src/index.tsx lines 1627–1641) -/

/-- One chat message. -/
structure ChatMessage where
  role : String
  text : String
deriving DecidableEq

/-- The `App` state touched by `handleDeleteCodebook`. Codebooks are a
JS object keyed by name, modelled as an association list in key order. -/
structure AppState where
  codebooks : List (String × List Theme)
  activeCodebook : String
  results : List CodingResult
  reportContent : String
  chatHistory : List ChatMessage
deriving DecidableEq

/-- `Object.keys(...).sort()`: the key list in ascending lexicographic
order (modelled by insertion sort). -/
def sortedKeys (codebooks : List (String × List Theme)) : List String :=
  (codebooks.map Prod.fst).insertionSort (· ≤ ·)

/-- `handleDeleteCodebook`: drop the named codebook, clear the results,
the report content and the chat history, and, when the active codebook
was the one deleted, reactivate the first remaining name in sorted order
(or the empty name when none remain). -/
def handleDeleteCodebook (codebookNameToDelete : String) (st : AppState) : AppState :=
  let newCodebooks := st.codebooks.filter fun p => p.1 ≠ codebookNameToDelete
  { st with codebooks := newCodebooks
            results := []
            reportContent := ""
            chatHistory := []
            activeCodebook :=
              if st.activeCodebook = codebookNameToDelete then
                (sortedKeys newCodebooks).headD ""
              else st.activeCodebook }

/-! ## Step lemmas for the character scanners -/

theorem parseLineChars_comma (rest field) :
    parseLineChars (',' :: rest) false field = field :: parseLineChars rest false [] := by
  rw [parseLineChars.eq_def]; simp

theorem parseLineChars_openQuote (rest field) :
    parseLineChars ('"' :: rest) false field = parseLineChars rest true field := by
  rw [parseLineChars.eq_def]; simp

theorem parseLineChars_plain (c : Char) (rest field) (h1 : c ≠ ',') (h2 : c ≠ '"') :
    parseLineChars (c :: rest) false field = parseLineChars rest false (field ++ [c]) := by
  rw [parseLineChars.eq_def]; split <;> simp_all

theorem parseLineChars_inQuotes (c : Char) (rest field) (h : c ≠ '"') :
    parseLineChars (c :: rest) true field = parseLineChars rest true (field ++ [c]) := by
  simp [parseLineChars, h]

theorem parseLineChars_escapedQuote (rest2 field) :
    parseLineChars ('"' :: '"' :: rest2) true field
      = parseLineChars rest2 true (field ++ ['"']) := rfl

theorem parseLineChars_closeQuote (rest field) (h : ∀ r2, rest ≠ '"' :: r2) :
    parseLineChars ('"' :: rest) true field = parseLineChars rest false field := by
  cases rest with
  | nil => rfl
  | cons c2 r2 =>
      have hc2 : c2 ≠ '"' := fun he => h r2 (by rw [he])
      simp [parseLineChars, hc2]

theorem splitLinesChars_newline (rest cur) :
    splitLinesChars ('\n' :: rest) cur = cur :: splitLinesChars rest [] := by
  rw [splitLinesChars.eq_def]; simp

theorem splitLinesChars_plain (c : Char) (rest cur) (h1 : c ≠ '\r') (h2 : c ≠ '\n') :
    splitLinesChars (c :: rest) cur = splitLinesChars rest (cur ++ [c]) := by
  rw [splitLinesChars.eq_def]; split <;> simp_all

/-! ## C7 — parse failure exactly on too few lines -/

/-- **C7.** The tabular parser fails (with the format-error message) iff
the trimmed text splits into fewer than 2 lines; with at least 2 lines it
succeeds with headers and rows. -/
theorem parseCsv_fails_iff_too_few_lines (csvText : String) :
    ((splitLines (jsTrim csvText)).length < 2 →
        parseCsv csvText = .error "CSV must have a header row and at least one data row.") ∧
    (2 ≤ (splitLines (jsTrim csvText)).length →
        ∃ headers rows, parseCsv csvText = .ok (headers, rows)) := by
  constructor
  · intro h
    simp [parseCsv, h]
  · intro h
    simp only [parseCsv]
    rw [if_neg (by omega)]
    exact ⟨_, _, rfl⟩

/-- Witness for C7 at concrete inputs: a two-line text parses, a
one-line text fails with the format error. -/
theorem parseCsv_fails_iff_too_few_lines_witness :
    (∃ headers rows, parseCsv "col\nvalue" = .ok (headers, rows)) ∧
    parseCsv "just one line" = .error "CSV must have a header row and at least one data row." := by
  refine ⟨(parseCsv_fails_iff_too_few_lines "col\nvalue").2 (by decide), ?_⟩
  exact (parseCsv_fails_iff_too_few_lines "just one line").1 (by decide)

/-! ## C8 — a failed run leaves the result set and the upload intact -/

/-- **C8.** When the classification response cannot be decoded (or the
call fails), `runAnalysis` only records the error: the result set, the
uploaded rows, the headers and the selected response column are all left
exactly as they were before the run. -/
theorem runAnalysis_failure_preserves_state (mode : AnalysisMode) (msg : String)
    (st : AnalysisState) :
    (runAnalysis mode (.error msg) st).results = st.results ∧
    (runAnalysis mode (.error msg) st).uploadedData = st.uploadedData ∧
    (runAnalysis mode (.error msg) st).dataHeaders = st.dataHeaders ∧
    (runAnalysis mode (.error msg) st).responseColumn = st.responseColumn := by
  simp [runAnalysis]

/-! ## C9 — cascade delete of the active codebook -/

/-- The head of the sorted key list is a least remaining key. -/
theorem sortedKeys_headD_least (codebooks : List (String × List Theme))
    (hne : codebooks ≠ []) :
    (sortedKeys codebooks).headD "" ∈ codebooks.map Prod.fst ∧
    ∀ n ∈ codebooks.map Prod.fst, (sortedKeys codebooks).headD "" ≤ n := by
  have hperm := List.perm_insertionSort (α := String) (· ≤ ·) (codebooks.map Prod.fst)
  have hsorted := List.sorted_insertionSort (α := String) (· ≤ ·) (codebooks.map Prod.fst)
  have hne' : sortedKeys codebooks ≠ [] := by
    intro h
    rw [sortedKeys] at h
    rw [h] at hperm
    have h2 : codebooks.map Prod.fst = [] := hperm.symm.eq_nil
    exact hne (List.map_eq_nil_iff.mp h2)
  cases hsk : sortedKeys codebooks with
  | nil => exact absurd hsk hne'
  | cons a t =>
      rw [sortedKeys] at hsk
      constructor
      · have : a ∈ codebooks.map Prod.fst := hperm.mem_iff.mp (by rw [hsk]; simp)
        simpa [hsk] using this
      · intro n hn
        have hn' : n ∈ a :: t := by rw [← hsk]; exact (hperm.mem_iff).mpr hn
        rw [hsk] at hsorted
        rcases List.mem_cons.mp hn' with h | h
        · simp [hsk, h]
        · simpa [hsk] using List.rel_of_sorted_cons hsorted n h

/-- **C9.** Deleting the active codebook clears the result set, the
report content and the chat history, and makes the lexicographically
first remaining codebook active (or none when no codebook remains). -/
theorem deleteActiveCodebook_cascades (st : AppState) :
    (handleDeleteCodebook st.activeCodebook st).results = [] ∧
    (handleDeleteCodebook st.activeCodebook st).reportContent = "" ∧
    (handleDeleteCodebook st.activeCodebook st).chatHistory = [] ∧
    (((handleDeleteCodebook st.activeCodebook st).codebooks = [] ∧
        (handleDeleteCodebook st.activeCodebook st).activeCodebook = "") ∨
      ((handleDeleteCodebook st.activeCodebook st).activeCodebook
          ∈ (handleDeleteCodebook st.activeCodebook st).codebooks.map Prod.fst ∧
        ∀ n ∈ (handleDeleteCodebook st.activeCodebook st).codebooks.map Prod.fst,
          (handleDeleteCodebook st.activeCodebook st).activeCodebook ≤ n)) := by
  have hact : (handleDeleteCodebook st.activeCodebook st).activeCodebook
      = (sortedKeys (st.codebooks.filter fun p => p.1 ≠ st.activeCodebook)).headD "" := by
    simp [handleDeleteCodebook]
  have hcb : (handleDeleteCodebook st.activeCodebook st).codebooks
      = st.codebooks.filter fun p => p.1 ≠ st.activeCodebook := rfl
  refine ⟨rfl, rfl, rfl, ?_⟩
  by_cases hne : st.codebooks.filter (fun p => p.1 ≠ st.activeCodebook) = []
  · left
    rw [hcb, hact, hne]
    exact ⟨rfl, rfl⟩
  · right
    rw [hcb, hact]
    exact sortedKeys_headD_least _ hne

/-! ## C10 — row shape: keys are exactly the headers -/

theorem mkRowAux_eq (values : List String) :
    ∀ (headers : List String) (i : Nat),
      mkRowAux values i headers =
        headers.zip (values.drop i)
          ++ ((headers.drop (values.drop i).length).map fun h => (h, "")) := by
  intro headers
  induction headers with
  | nil => intro i; simp [mkRowAux]
  | cons h hs ih =>
      intro i
      rw [mkRowAux]
      cases hd : values.drop i with
      | nil =>
          have hlen : values.length ≤ i := List.drop_eq_nil_iff.mp hd
          have hget : values.getD i "" = "" := by
            rw [List.getD_eq_getElem?_getD, List.getElem?_eq_none hlen]
            rfl
          have hd1 : values.drop (i + 1) = [] := List.drop_eq_nil_iff.mpr (by omega)
          rw [ih (i + 1), hget, hd1]
          simp
      | cons v vs =>
          have h1 : values[i]? = some v := by
            rw [← List.head?_drop, hd]
            rfl
          have hget : values.getD i "" = v := by
            rw [List.getD_eq_getElem?_getD, h1]
            rfl
          have hd1 : values.drop (i + 1) = vs := by
            have h2 : values.drop (i + 1) = (values.drop i).drop 1 := by
              rw [List.drop_drop]
            rw [h2, hd]
            rfl
          rw [ih (i + 1), hget, hd1]
          simp

theorem mkRow_eq_zip_pad (headers values : List String) :
    mkRow headers values =
      headers.zip values ++ ((headers.drop values.length).map fun h => (h, "")) := by
  have h := mkRowAux_eq values headers 0
  simpa [mkRow] using h

theorem map_fst_zip_take (hs vs : List String) :
    ((hs.zip vs).map Prod.fst : List String) = hs.take vs.length := by
  induction hs generalizing vs with
  | nil => simp
  | cons h hs ih =>
      cases vs with
      | nil => simp
      | cons v vs => simp [ih]

theorem mkRow_keys (headers values : List String) :
    (mkRow headers values).map Prod.fst = headers := by
  rw [mkRow_eq_zip_pad, List.map_append, map_fst_zip_take, List.map_map]
  have h : (Prod.fst ∘ fun h => (h, "")) = (id : String → String) := rfl
  rw [h, List.map_id, List.take_append_drop]

/-- **C10.** Every parsed row binds exactly the header list: a short data
line is padded with empty strings for the missing trailing columns
(`headers.drop values.length` below), and extra trailing values beyond
the headers are discarded (`zip` truncates), appearing nowhere in the
row. -/
theorem parse_rows_shape :
    (∀ csvText headers rows, parseCsv csvText = .ok (headers, rows) →
        ∀ r ∈ rows, r.map Prod.fst = headers) ∧
    (∀ headers values, mkRow headers values =
        headers.zip values ++ ((headers.drop values.length).map fun h => (h, ""))) := by
  refine ⟨?_, mkRow_eq_zip_pad⟩
  intro csvText headers rows hok r hr
  simp only [parseCsv] at hok
  by_cases hlen : (splitLines (jsTrim csvText)).length < 2
  · rw [if_pos hlen] at hok
    cases hok
  · rw [if_neg hlen] at hok
    cases hok
    obtain ⟨line, _, hline⟩ := List.mem_filterMap.mp hr
    by_cases hblank : (jsTrim line).data.isEmpty
    · rw [if_pos hblank] at hline
      cases hline
    · rw [if_neg hblank] at hline
      cases hline
      exact mkRow_keys _ _

/-- Witness for C10: parsing a CSV whose first data line has an extra
trailing value and whose second is short yields rows keyed exactly by
the headers, with the extra value dropped and the missing one empty. -/
theorem parse_rows_shape_witness :
    parseCsv "a,b\n1,2,3\nx" = .ok (["a", "b"], [[("a", "1"), ("b", "2")], [("a", "x"), ("b", "")]]) ∧
    (∀ r ∈ [[("a", "1"), ("b", "2")], [("a", "x"), ("b", "")]], List.map Prod.fst r = ["a", "b"]) := by
  have hok : parseCsv "a,b\n1,2,3\nx"
      = .ok (["a", "b"], [[("a", "1"), ("b", "2")], [("a", "x"), ("b", "")]]) := by decide
  exact ⟨hok, parse_rows_shape.1 "a,b\n1,2,3\nx" _ _ hok⟩

/-! ## C3 — case-insensitive uniqueness of category names -/

theorem hasNameCI_iff (themes : List Theme) (cand : String) :
    hasNameCI themes cand = true ↔
      toLowerCase cand ∈ themes.map fun t => toLowerCase t.name := by
  simp only [hasNameCI, List.any_eq_true, beq_iff_eq, List.mem_map]

/-- Appending the batch entries that survive the dedup-against-existing
filter preserves the invariant — provided the batch itself is
case-insensitively duplicate-free. -/
theorem namesCIUnique_append_filter (prevThemes newThemes : List Theme)
    (h1 : NamesCIUnique prevThemes) (h2 : NamesCIUnique newThemes) :
    NamesCIUnique
      (prevThemes ++ newThemes.filter fun t => !(hasNameCI prevThemes t.name)) := by
  unfold NamesCIUnique at *
  rw [List.map_append, List.nodup_append]
  refine ⟨h1, ((List.filter_sublist _).map _).nodup h2, ?_⟩
  intro x hx1 hx2
  obtain ⟨t, ht, rfl⟩ := List.mem_map.mp hx2
  have hkept := (List.mem_filter.mp ht).2
  have hno : ¬ hasNameCI prevThemes t.name = true := by
    simpa using hkept
  exact hno ((hasNameCI_iff _ _).mpr hx1)

/-- **C3 (amended).** Adding a single category always preserves
case-insensitive uniqueness of the taxonomy's category names; the
bulk import and the approved-suggestion fold-in preserve it provided the
incoming batch itself is case-insensitively duplicate-free (the code
deduplicates only against the existing categories, not within the
batch — see the counterexample). -/
theorem taxonomy_ops_preserve_uniqueness :
    (∀ themes newName newDesc, NamesCIUnique themes →
        NamesCIUnique (handleAddTheme themes newName newDesc)) ∧
    (∀ prevThemes newThemes, NamesCIUnique prevThemes → NamesCIUnique newThemes →
        NamesCIUnique (handleFileUpload prevThemes newThemes)) ∧
    (∀ activeThemes newThemes, NamesCIUnique activeThemes → NamesCIUnique newThemes →
        NamesCIUnique (handleAddNewThemes activeThemes newThemes)) := by
  refine ⟨?_, ?_, ?_⟩
  · intro themes n d h
    unfold handleAddTheme
    split
    · split
      · exact h
      · rename_i hno
        unfold NamesCIUnique at *
        rw [List.map_append, List.nodup_append]
        refine ⟨h, List.nodup_singleton _, ?_⟩
        intro x hx1 hx2
        simp only [List.map_cons, List.map_nil, List.mem_singleton] at hx2
        subst hx2
        exact hno ((hasNameCI_iff _ _).mpr hx1)
    · exact h
  · intro prev new h1 h2
    exact namesCIUnique_append_filter prev new h1 h2
  · intro active new h1 h2
    simp only [handleAddNewThemes]
    split
    · exact namesCIUnique_append_filter active new h1 h2
    · exact h1

/-- Witness for C3 (amended) at concrete inputs: a single add, a
bulk import and a suggestion fold-in, each with an internally
duplicate-free batch, keep the taxonomy duplicate-free. -/
theorem taxonomy_ops_preserve_uniqueness_witness :
    NamesCIUnique (handleAddTheme [⟨"Support", "d"⟩] "Billing" "issues") ∧
    NamesCIUnique (handleFileUpload [⟨"Support", "d"⟩] [⟨"Billing", "b"⟩, ⟨"support", "s"⟩]) ∧
    NamesCIUnique (handleAddNewThemes [⟨"Support", "d"⟩] [⟨"Billing", "b"⟩]) :=
  ⟨taxonomy_ops_preserve_uniqueness.1 [⟨"Support", "d"⟩] "Billing" "issues" (by decide),
   taxonomy_ops_preserve_uniqueness.2.1 [⟨"Support", "d"⟩] [⟨"Billing", "b"⟩, ⟨"support", "s"⟩]
     (by decide) (by decide),
   taxonomy_ops_preserve_uniqueness.2.2 [⟨"Support", "d"⟩] [⟨"Billing", "b"⟩]
     (by decide) (by decide)⟩

/-- **C3 counterexample.** A bulk-import batch (and likewise a
suggestion batch) containing two entries whose names differ only in
case produces a duplicate in the taxonomy: the code's filters compare
only against pre-existing categories, not within the batch. -/
theorem batch_duplicate_breaks_uniqueness :
    NamesCIUnique ([] : List Theme) ∧
    ¬ NamesCIUnique (handleFileUpload [] [⟨"Support", "a"⟩, ⟨"support", "b"⟩]) ∧
    ¬ NamesCIUnique (handleAddNewThemes [] [⟨"Support", "a"⟩, ⟨"support", "b"⟩]) := by
  refine ⟨by decide, by decide, by decide⟩

/-! ## C4 — an incomplete suggestion payload is dropped from both sets -/

/-- **C4 (code bug).** A returned record carrying a suggestion with a
non-empty name but an empty description passes neither the suggestion
filter (which requires a non-empty description) nor the
immediate-finalization filter (which only excludes records whose
suggestion name is non-empty): running the analysis on such a record
leaves it in no output set — it is silently dropped, where the claim
(and the spec) require it to finalize immediately. -/
theorem incomplete_suggestion_dropped :
    isSuggestion ⟨"Uncategorized", "Neutral", 1, "w", "resp", some ⟨"New Theme", ""⟩, none⟩
        = false ∧
    isRegular ⟨"Uncategorized", "Neutral", 1, "w", "resp", some ⟨"New Theme", ""⟩, none⟩
        = false ∧
    ((runAnalysis .replace
        (.ok [⟨"hello", "Uncategorized", "Neutral", 1, "w", some ⟨"New Theme", ""⟩⟩])
        ⟨[], [[("resp", "hello")]], ["resp"], "resp", [], [], none, none, false⟩).results = []
      ∧ (runAnalysis .replace
          (.ok [⟨"hello", "Uncategorized", "Neutral", 1, "w", some ⟨"New Theme", ""⟩⟩])
          ⟨[], [[("resp", "hello")]], ["resp"], "resp", [], [], none, none, false⟩).pendingResults = []
      ∧ (runAnalysis .replace
          (.ok [⟨"hello", "Uncategorized", "Neutral", 1, "w", some ⟨"New Theme", ""⟩⟩])
          ⟨[], [[("resp", "hello")]], ["resp"], "resp", [], [], none, none, false⟩).suggestedThemes = []) := by
  refine ⟨rfl, rfl, by decide, by decide, by decide⟩

/-! ## C1 — reconciliation matching policy -/

theorem find?_first {α : Type} (p : α → Bool) :
    ∀ (l : List α) (j : Nat) (hj : j < l.length),
      p l[j] = true →
      (∀ k (hk : k < j), p l[k] = false) →
      l.find? p = some l[j] := by
  intro l
  induction l with
  | nil => intro j hj; simp at hj
  | cons a t ih =>
      intro j hj hp hfirst
      cases j with
      | zero =>
          simp only [List.getElem_cons_zero] at hp ⊢
          rw [List.find?_cons_of_pos _ hp]
      | succ j' =>
          have ha : p a = false := by
            have h0 := hfirst 0 (Nat.succ_pos j')
            simpa using h0
          rw [List.find?_cons_of_neg _ (by simp [ha])]
          have hj' : j' < t.length := by simpa using hj
          have hp' : p t[j'] = true := by simpa using hp
          have hres := ih j' hj' hp' (fun k hk => by
            have hk1 := hfirst (k + 1) (by omega)
            simpa using hk1)
          simpa using hres

theorem reconcile_length (uploadedData : List Row) (responseColumn : String)
    (records : List AnalysisRecord) :
    (reconcile uploadedData responseColumn records).length = records.length := by
  simp [reconcile]

theorem reconcile_rawData (uploadedData : List Row) (responseColumn : String)
    (records : List AnalysisRecord) (i : Nat) (hi : i < records.length)
    (hi' : i < (reconcile uploadedData responseColumn records).length) :
    ((reconcile uploadedData responseColumn records).get ⟨i, hi'⟩).rawData =
      ((uploadedData.find? fun d =>
          rowGet? d responseColumn == some records[i].originalResponse).orElse
        fun _ => uploadedData.get? i) := by
  simp [reconcile, List.getElem_enum]

/-- **C1 (amended).** Each returned record is matched to the *first*
uploaded row whose response-column value equals its `originalResponse`
exactly — so several returned records carrying the same duplicated text
are all assigned to the first-order occurrence, not distributed over the
occurrences — and the positional-index fallback applies exactly when no
uploaded row matches the text at all. -/
theorem reconcile_first_match_or_index (uploadedData : List Row)
    (responseColumn : String) (records : List AnalysisRecord)
    (i : Nat) (hi : i < records.length)
    (hi' : i < (reconcile uploadedData responseColumn records).length) :
    ((∀ d ∈ uploadedData,
        rowGet? d responseColumn ≠ some records[i].originalResponse) →
      ((reconcile uploadedData responseColumn records).get ⟨i, hi'⟩).rawData
        = uploadedData.get? i) ∧
    (∀ j (hj : j < uploadedData.length),
      rowGet? uploadedData[j] responseColumn = some records[i].originalResponse →
      (∀ k (hk : k < j),
        rowGet? uploadedData[k] responseColumn ≠ some records[i].originalResponse) →
      ((reconcile uploadedData responseColumn records).get ⟨i, hi'⟩).rawData
        = some uploadedData[j]) := by
  constructor
  · intro hnone
    rw [reconcile_rawData _ _ _ i hi hi']
    rw [List.find?_eq_none.mpr (fun d hd => by simp [hnone d hd])]
    rfl
  · intro j hj hmatch hfirst
    rw [reconcile_rawData _ _ _ i hi hi']
    rw [find?_first _ uploadedData j hj (by simp [hmatch])
      (fun k hk => by simp [hfirst k hk])]
    rfl

/-- Witness for C1 (amended): with two duplicate rows `"ok"` and a
record carrying `"ok"`, the match lands on the first-order occurrence;
a record whose text matches no row falls back to its index. -/
theorem reconcile_first_match_or_index_witness :
    ((reconcile [[("r", "ok"), ("id", "1")], [("r", "ok"), ("id", "2")]] "r"
        [⟨"ok", "T", "Positive", 1, "w", none⟩, ⟨"ok", "T", "Positive", 1, "w", none⟩]).get?
        1).map (fun res => res.rawData)
      = some (some [("r", "ok"), ("id", "1")]) ∧
    ((reconcile [[("r", "a")], [("r", "b")]] "r"
        [⟨"zz", "T", "Positive", 1, "w", none⟩, ⟨"zz", "T", "Positive", 1, "w", none⟩]).get?
        1).map (fun res => res.rawData)
      = some (some [("r", "b")]) := by
  constructor
  · have h := (reconcile_first_match_or_index
      [[("r", "ok"), ("id", "1")], [("r", "ok"), ("id", "2")]] "r"
      [⟨"ok", "T", "Positive", 1, "w", none⟩, ⟨"ok", "T", "Positive", 1, "w", none⟩]
      1 (by decide) (by decide)).2 0 (by decide) (by decide)
      (fun k hk => absurd hk (by omega))
    rw [List.get?_eq_get (by decide), Option.map_some']
    rw [h]
    decide
  · have h := (reconcile_first_match_or_index [[("r", "a")], [("r", "b")]] "r"
      [⟨"zz", "T", "Positive", 1, "w", none⟩, ⟨"zz", "T", "Positive", 1, "w", none⟩]
      1 (by decide) (by decide)).1 (by decide)
    rw [List.get?_eq_get (by decide), Option.map_some']
    rw [h]
    decide

/-- **C1 counterexample.** Two uploaded rows both answer `"ok"` and the
service returns two records with `originalResponse = "ok"`: the claim
requires the second returned record to be matched to the second-order
occurrence, but the code's `find`-based lookup matches it (like the
first record) to the first occurrence. -/
theorem reconcile_duplicates_collapse_to_first :
    ((reconcile [[("r", "ok"), ("id", "1")], [("r", "ok"), ("id", "2")]] "r"
        [⟨"ok", "T", "Positive", 1, "w", none⟩, ⟨"ok", "T", "Positive", 1, "w", none⟩]).get?
        1).map (fun res => res.rawData)
      ≠ some (some [("r", "ok"), ("id", "2")]) := by decide

/-! ## C5 — append vs replace, and the captured mode -/

/-- **C5.** After a successful run: with no suggestions in the batch,
append mode extends the existing result set (originals unchanged, in
order, new results after them) and replace mode installs exactly the new
batch; with suggestions present, the result set is untouched for now,
the mode chosen at the start of the run is captured in the state, and
the later merge of the approved suggestions applies that captured mode
to the parked regular results plus the processed suggestions in one
step. -/
theorem append_replace_merge (st : AnalysisState) (mode : AnalysisMode)
    (records : List AnalysisRecord) (processed : List CodingResult) :
    ((reconcile st.uploadedData st.responseColumn records).filter isSuggestion = [] →
      ((mode = .append →
          (runAnalysis mode (.ok records) st).results
            = st.results
              ++ (reconcile st.uploadedData st.responseColumn records).filter isRegular) ∧
       (mode = .replace →
          (runAnalysis mode (.ok records) st).results
            = (reconcile st.uploadedData st.responseColumn records).filter isRegular))) ∧
    ((reconcile st.uploadedData st.responseColumn records).filter isSuggestion ≠ [] →
      ((runAnalysis mode (.ok records) st).results = st.results ∧
       (runAnalysis mode (.ok records) st).analysisMode = some mode ∧
       (mode = .append →
          (handleSuggestionsComplete processed (runAnalysis mode (.ok records) st)).results
            = st.results
              ++ ((reconcile st.uploadedData st.responseColumn records).filter isRegular
                  ++ processed)) ∧
       (mode = .replace →
          (handleSuggestionsComplete processed (runAnalysis mode (.ok records) st)).results
            = (reconcile st.uploadedData st.responseColumn records).filter isRegular
                ++ processed))) := by
  constructor
  · intro hempty
    constructor <;> intro hm <;> subst hm <;>
      simp [runAnalysis, hempty]
  · intro hne
    have hlen : 0 < ((reconcile st.uploadedData st.responseColumn records).filter
        isSuggestion).length := List.length_pos.mpr hne
    refine ⟨?_, ?_, ?_, ?_⟩
    · simp [runAnalysis, hlen]
    · simp [runAnalysis, hlen]
    · intro hm; subst hm
      simp [runAnalysis, handleSuggestionsComplete, hlen]
    · intro hm; subst hm
      simp [runAnalysis, handleSuggestionsComplete, hlen]

/-- A result set of five entries plus a three-record batch, for the C5
witness. -/
def c5State : AnalysisState :=
  ⟨[⟨"T", "Neutral", 1, "w", "r", none, none⟩, ⟨"T", "Neutral", 1, "w", "r", none, none⟩,
    ⟨"T", "Neutral", 1, "w", "r", none, none⟩, ⟨"T", "Neutral", 1, "w", "r", none, none⟩,
    ⟨"T", "Neutral", 1, "w", "r", none, none⟩],
   [[("r", "a")], [("r", "b")], [("r", "c")]], ["r"], "r", [], [], none, none, false⟩

/-- Three returned records with no suggestion payload, for the C5
witness. -/
def c5Records : List AnalysisRecord :=
  [⟨"a", "T", "Neutral", 1, "w", none⟩, ⟨"b", "T", "Neutral", 1, "w", none⟩,
   ⟨"c", "T", "Neutral", 1, "w", none⟩]

/-- One returned record carrying a complete suggestion, for the C5
witness. -/
def c5SuggRecords : List AnalysisRecord :=
  [⟨"a", "Uncategorized", "Neutral", 1, "w", some ⟨"New", "n"⟩⟩]

/-- Witness for C5: starting from five results, a three-record batch
gives eight results in append mode and three in replace mode; with a
suggestion batch under replace mode, the captured mode is stored and
the deferred merge yields exactly the processed suggestions. -/
theorem append_replace_merge_witness :
    (runAnalysis .append (.ok c5Records) c5State).results.length = 8 ∧
    (runAnalysis .append (.ok c5Records) c5State).results.take 5 = c5State.results ∧
    (runAnalysis .replace (.ok c5Records) c5State).results.length = 3 ∧
    (runAnalysis .replace (.ok c5SuggRecords) c5State).analysisMode = some .replace ∧
    (handleSuggestionsComplete [⟨"New", "Neutral", 1, "w", "r", none, none⟩]
        (runAnalysis .replace (.ok c5SuggRecords) c5State)).results.length = 1 := by
  have h1 := ((append_replace_merge c5State .append c5Records []).1 (by decide)).1 rfl
  have h2 := ((append_replace_merge c5State .replace c5Records []).1 (by decide)).2 rfl
  have h3 := (append_replace_merge c5State .replace c5SuggRecords
      [⟨"New", "Neutral", 1, "w", "r", none, none⟩]).2 (by decide)
  refine ⟨?_, ?_, ?_, h3.2.1, ?_⟩
  · rw [h1]; decide
  · rw [h1]; decide
  · rw [h2]; decide
  · rw [h3.2.2.2 rfl]; decide

/-! ## C6 — folding approved suggestions into taxonomy and results -/

theorem handleFinishThemes_length (ps : List SuggestionRecord) :
    (handleFinishThemes ps).length = (ps.filter approvedOk).length := by
  induction ps with
  | nil => rfl
  | cons s t ih =>
      by_cases h : approvedOk s = true <;>
        simp [handleFinishThemes, List.filter_cons, h] at ih ⊢ <;>
        simpa [handleFinishThemes] using ih

/-- **C6 (amended).** Completing the approval workflow: every approved
record with non-blank trimmed name and description contributes one new
category — provided its name does not collide case-insensitively with an
existing category, in which case the §4.4 deduplication drops it (see
the counterexample) — with the result's category set to the trimmed
edited name; every other record's category is forced to
`"Uncategorized"`; and all records of the batch are merged into the
result set in a single step together with the parked regular results,
under the captured mode. -/
theorem suggestion_finish_merge (activeThemes : List Theme)
    (ps : List SuggestionRecord) (st : AnalysisState)
    (hfresh : ∀ t ∈ handleFinishThemes ps, hasNameCI activeThemes t.name = false) :
    handleAddNewThemes activeThemes (handleFinishThemes ps)
        = activeThemes ++ handleFinishThemes ps ∧
    (handleFinishThemes ps).length = (ps.filter approvedOk).length ∧
    (handleFinishResults ps).map (fun r => r.themeName)
        = ps.map (fun s => if approvedOk s then jsTrim s.editedName else "Uncategorized") ∧
    (handleFinishResults ps).length = ps.length ∧
    (handleSuggestionsComplete (handleFinishResults ps) st).results
        = (match st.analysisMode with
           | some .append => st.results
           | _ => []) ++ (st.pendingResults ++ handleFinishResults ps) := by
  refine ⟨?_, handleFinishThemes_length ps, ?_, by simp [handleFinishResults], ?_⟩
  · have hkeep : (handleFinishThemes ps).filter
        (fun t => !(hasNameCI activeThemes t.name)) = handleFinishThemes ps :=
      List.filter_eq_self.mpr (fun t ht => by rw [hfresh t ht]; rfl)
    simp only [handleAddNewThemes, hkeep]
    split
    · rfl
    · rename_i hlen
      have h0 : handleFinishThemes ps = [] := by
        cases h : handleFinishThemes ps with
        | nil => rfl
        | cons a t => rw [h] at hlen; simp at hlen
      rw [h0]
      simp
  · simp only [handleFinishResults, List.map_map]
    refine List.map_congr_left fun s _ => ?_
    by_cases h : approvedOk s = true <;> simp [h]
  · simp only [handleSuggestionsComplete]
    cases hm : st.analysisMode with
    | none => simp
    | some m => cases m <;> simp

/-- A batch of three suggestion records — two approved with fresh,
distinct names, one rejected — for the C6 witness. -/
def c6Batch : List SuggestionRecord :=
  [⟨⟨"Uncategorized", "Neutral", 1, "w", "r", some ⟨"Billing", "b"⟩, none⟩, true,
      "Billing", "b"⟩,
   ⟨⟨"Uncategorized", "Neutral", 1, "w", "r", some ⟨"Refunds", "f"⟩, none⟩, false,
      "Refunds", "f"⟩,
   ⟨⟨"Uncategorized", "Neutral", 1, "w", "r", some ⟨"Shipping", "s"⟩, none⟩, true,
      "Shipping", "s"⟩]

/-- Witness for C6: the 3-record batch (2 approved, 1 rejected) adds
exactly 2 new categories to the taxonomy, all 3 results land in the
result set in one merge, and the rejected one is `"Uncategorized"`. -/
theorem suggestion_finish_merge_witness :
    handleAddNewThemes [⟨"Support", "d"⟩] (handleFinishThemes c6Batch)
        = [⟨"Support", "d"⟩, ⟨"Billing", "b"⟩, ⟨"Shipping", "s"⟩] ∧
    (handleFinishThemes c6Batch).length = 2 ∧
    (handleSuggestionsComplete (handleFinishResults c6Batch)
        ⟨[], [], [], "", [], [], some .replace, none, true⟩).results.map
        (fun r => r.themeName)
      = ["Billing", "Uncategorized", "Shipping"] := by
  have h := suggestion_finish_merge [⟨"Support", "d"⟩] c6Batch
    ⟨[], [], [], "", [], [], some .replace, none, true⟩ (by decide)
  refine ⟨?_, ?_, ?_⟩
  · rw [h.1]; decide
  · rw [h.2.1]; decide
  · rw [h.2.2.2.2]; decide

/-- **C6 counterexample.** A batch with one approved suggestion whose
trimmed name `"support"` matches the existing category `"Support"`
case-insensitively yields *zero* new categories (the dedup of §4.4
drops it), where the claim promises one new category per approved
record. -/
theorem approved_colliding_suggestion_adds_nothing :
    (List.filter approvedOk
        [⟨⟨"Uncategorized", "Neutral", 1, "w", "r", some ⟨"support", "x"⟩, none⟩, true,
            "support", "x"⟩]).length = 1 ∧
    handleAddNewThemes [⟨"Support", "d"⟩]
        (handleFinishThemes
          [⟨⟨"Uncategorized", "Neutral", 1, "w", "r", some ⟨"support", "x"⟩, none⟩, true,
              "support", "x"⟩])
      = [⟨"Support", "d"⟩] := by
  exact ⟨by decide, by decide⟩

/-! ## C2 — round-trip of export and parse

The ladder: characterize `String.intercalate` at the character level
(`joinWith`), show the field scanner inverts `escapeCsvField` field by
field, show the line splitter inverts newline-joining for newline-free
lines, show row reconstruction inverts value extraction, and assemble. -/

/-- Character-level join: the shape of `String.intercalate`. -/
def joinWith (sep : List Char) (ls : List (List Char)) : List Char :=
  match ls with
  | [] => []
  | x :: xs => x ++ xs.flatMap fun y => sep ++ y

theorem joinWith_cons_cons (sep a b : List Char) (u : List (List Char)) :
    joinWith sep (a :: b :: u) = a ++ sep ++ joinWith sep (b :: u) := by
  simp [joinWith]

theorem intercalate_go_data (s : String) :
    ∀ (as : List String) (acc : String),
      (String.intercalate.go acc s as).data
        = joinWith s.data (acc.data :: as.map String.data) := by
  intro as
  induction as with
  | nil => intro acc; simp [String.intercalate.go, joinWith]
  | cons a t ih =>
      intro acc
      rw [String.intercalate.go, ih]
      cases t with
      | nil => simp [joinWith]
      | cons b u => simp [joinWith]

theorem intercalate_data (s : String) (l : List String) :
    (String.intercalate s l).data = joinWith s.data (l.map String.data) := by
  cases l with
  | nil => rfl
  | cons a t =>
      rw [List.map_cons, String.intercalate]
      exact intercalate_go_data s t a

theorem mem_joinWith {c : Char} {sep : List Char} {ls : List (List Char)}
    (h : c ∈ joinWith sep ls) : c ∈ sep ∨ ∃ l ∈ ls, c ∈ l := by
  cases ls with
  | nil => simp [joinWith] at h
  | cons x xs =>
      simp only [joinWith, List.mem_append, List.mem_flatMap] at h
      rcases h with h | ⟨y, hy, hc⟩
      · exact .inr ⟨x, by simp, h⟩
      · rcases hc with h | h
        · exact .inl h
        · exact .inr ⟨y, by simp [hy], h⟩

theorem mem_of_mem_doubleQuotes {c : Char} {cs : List Char}
    (h : c ∈ doubleQuotes cs) : c ∈ cs := by
  simp only [doubleQuotes, List.mem_flatMap] at h
  obtain ⟨a, ha, hc⟩ := h
  have hca : c = a := by
    by_cases hq : a = '"'
    · subst hq; simpa using hc
    · simpa [hq] using hc
  rwa [hca]

/-- Fields with no comma and no quote scan straight through. -/
theorem parseLineChars_appendPlain (cs : List Char)
    (h : ∀ c ∈ cs, c ≠ ',' ∧ c ≠ '"') :
    ∀ (rest field : List Char),
      parseLineChars (cs ++ rest) false field = parseLineChars rest false (field ++ cs) := by
  induction cs with
  | nil => intro rest field; simp
  | cons c cs ih =>
      intro rest field
      have hc := h c (List.mem_cons_self c cs)
      rw [List.cons_append, parseLineChars_plain c _ _ hc.1 hc.2,
        ih (fun x hx => h x (List.mem_cons_of_mem c hx))]
      simp

/-- Scanning the quote-doubled content of a quoted field, then its
closing quote, recovers the content (needs the next character after the
closing quote, if any, to not be a quote). -/
theorem parseLineChars_doubleQuotes (cs : List Char) :
    ∀ (rest field : List Char), (∀ r2, rest ≠ '"' :: r2) →
      parseLineChars (doubleQuotes cs ++ '"' :: rest) true field
        = parseLineChars rest false (field ++ cs) := by
  induction cs with
  | nil =>
      intro rest field hrest
      simpa [doubleQuotes] using parseLineChars_closeQuote rest field hrest
  | cons c cs ih =>
      intro rest field hrest
      by_cases hc : c = '"'
      · subst hc
        rw [show doubleQuotes ('"' :: cs) = '"' :: '"' :: doubleQuotes cs by
          simp [doubleQuotes]]
        rw [List.cons_append, List.cons_append, parseLineChars_escapedQuote,
          ih rest (field ++ ['"']) hrest]
        simp
      · rw [show doubleQuotes (c :: cs) = c :: doubleQuotes cs by
          simp [doubleQuotes, hc]]
        rw [List.cons_append, parseLineChars_inQuotes c _ _ hc,
          ih rest (field ++ [c]) hrest]
        simp

theorem escapeCsvField_data (v : String) :
    (escapeCsvField v).data =
      if needsQuoting v then '"' :: (doubleQuotes v.data ++ ['"']) else v.data := by
  unfold escapeCsvField
  split <;> simp_all

theorem needsQuoting_false_chars (v : String) (h : needsQuoting v = false) :
    ∀ c ∈ v.data, c ≠ ',' ∧ c ≠ '"' := by
  intro c hc
  unfold needsQuoting at h
  rw [List.any_eq_false] at h
  have hcc := h c hc
  simp only [Bool.not_eq_true, Bool.or_eq_false_iff, decide_eq_false_iff_not] at hcc
  exact ⟨hcc.1.2, hcc.1.1⟩

/-- One escaped field followed by a comma scans to that field's value. -/
theorem parseLineChars_escField_comma (v : String) (rest field : List Char) :
    parseLineChars ((escapeCsvField v).data ++ ',' :: rest) false field
      = (field ++ v.data) :: parseLineChars rest false [] := by
  rw [escapeCsvField_data]
  by_cases h : needsQuoting v = true
  · rw [if_pos h]
    rw [show ('"' :: (doubleQuotes v.data ++ ['"'])) ++ ',' :: rest
        = '"' :: (doubleQuotes v.data ++ '"' :: (',' :: rest)) by simp]
    rw [parseLineChars_openQuote,
      parseLineChars_doubleQuotes v.data (',' :: rest) field
        (fun r2 h2 => by injection h2 with h3 _; exact absurd h3 (by decide)),
      parseLineChars_comma]
  · rw [if_neg h]
    have hch := needsQuoting_false_chars v (by simpa using h)
    rw [parseLineChars_appendPlain v.data hch (',' :: rest) field, parseLineChars_comma]

/-- A final escaped field scans to its value. -/
theorem parseLineChars_escField_last (v : String) (field : List Char) :
    parseLineChars ((escapeCsvField v).data) false field = [field ++ v.data] := by
  rw [escapeCsvField_data]
  by_cases h : needsQuoting v = true
  · rw [if_pos h]
    rw [show ('"' :: (doubleQuotes v.data ++ ['"']))
        = '"' :: (doubleQuotes v.data ++ '"' :: ([] : List Char)) by simp]
    rw [parseLineChars_openQuote,
      parseLineChars_doubleQuotes v.data [] field (fun r2 h2 => by cases h2)]
    rfl
  · rw [if_neg h]
    have hch := needsQuoting_false_chars v (by simpa using h)
    have happ := parseLineChars_appendPlain v.data hch [] field
    simpa using happ

/-- The whole-line inverse: scanning the comma-join of escaped fields
recovers the field values. -/
theorem parseLineChars_joinWith_esc (vs : List String) (hne : vs ≠ []) :
    parseLineChars (joinWith [','] (vs.map fun v => (escapeCsvField v).data)) false []
      = vs.map String.data := by
  induction vs with
  | nil => exact absurd rfl hne
  | cons v t ih =>
      cases t with
      | nil =>
          simp only [List.map_cons, List.map_nil, joinWith, List.flatMap_nil,
            List.append_nil]
          simpa using parseLineChars_escField_last v []
      | cons w u =>
          have hjw : joinWith [','] ((v :: w :: u).map fun x => (escapeCsvField x).data)
              = (escapeCsvField v).data
                ++ ',' :: joinWith [','] ((w :: u).map fun x => (escapeCsvField x).data) := by
            rw [List.map_cons, List.map_cons, joinWith_cons_cons]
            simp
          rw [hjw, parseLineChars_escField_comma, ih (by simp)]
          simp

/-! ### Line splitting inverts newline-joining of newline-free lines -/

theorem splitLinesChars_noSep (cs : List Char)
    (h : ∀ c ∈ cs, c ≠ '\r' ∧ c ≠ '\n') :
    ∀ (cur : List Char), splitLinesChars cs cur = [cur ++ cs] := by
  induction cs with
  | nil => intro cur; simp [splitLinesChars]
  | cons c cs ih =>
      intro cur
      have hc := h c (List.mem_cons_self c cs)
      rw [splitLinesChars_plain c _ _ hc.1 hc.2,
        ih (fun x hx => h x (List.mem_cons_of_mem c hx))]
      simp

theorem splitLinesChars_append_nl (cs : List Char)
    (h : ∀ c ∈ cs, c ≠ '\r' ∧ c ≠ '\n') :
    ∀ (rest cur : List Char),
      splitLinesChars (cs ++ '\n' :: rest) cur = (cur ++ cs) :: splitLinesChars rest [] := by
  induction cs with
  | nil =>
      intro rest cur
      rw [List.nil_append, splitLinesChars_newline]
      simp
  | cons c cs ih =>
      intro rest cur
      have hc := h c (List.mem_cons_self c cs)
      rw [List.cons_append, splitLinesChars_plain c _ _ hc.1 hc.2,
        ih (fun x hx => h x (List.mem_cons_of_mem c hx))]
      simp

theorem splitLinesChars_joinWith (lls : List (List Char)) (hne : lls ≠ [])
    (h : ∀ l ∈ lls, ∀ c ∈ l, c ≠ '\r' ∧ c ≠ '\n') :
    splitLinesChars (joinWith ['\n'] lls) [] = lls := by
  induction lls with
  | nil => exact absurd rfl hne
  | cons x xs ih =>
      cases xs with
      | nil =>
          simp only [joinWith, List.flatMap_nil, List.append_nil]
          simpa using splitLinesChars_noSep x (h x (by simp)) []
      | cons y u =>
          have hjw : joinWith ['\n'] (x :: y :: u) = x ++ '\n' :: joinWith ['\n'] (y :: u) := by
            rw [joinWith_cons_cons]
            simp
          rw [hjw, splitLinesChars_append_nl x (h x (by simp)) _ [],
            ih (by simp) (fun l hl => h l (List.mem_cons_of_mem x hl))]
          simp

theorem mk_data (s : String) : (⟨s.data⟩ : String) = s := rfl

theorem splitLines_joinWith (ls : List String) (hne : ls ≠ [])
    (h : ∀ l ∈ ls, ∀ c ∈ l.data, c ≠ '\r' ∧ c ≠ '\n')
    (s : String) (hs : s.data = joinWith ['\n'] (ls.map String.data)) :
    splitLines s = ls := by
  unfold splitLines
  rw [hs, splitLinesChars_joinWith (ls.map String.data) (by simpa using hne)
    (fun l hl c hc => by
      obtain ⟨str, hstr, rfl⟩ := List.mem_map.mp hl
      exact h str hstr c hc)]
  rw [List.map_map, show ((fun cs => (⟨cs⟩ : String)) ∘ String.data) = id from rfl,
    List.map_id]

/-! ### Row reconstruction inverts value extraction -/

theorem mkRow_full (headers values : List String) (hlen : values.length = headers.length) :
    mkRow headers values = headers.zip values := by
  rw [mkRow_eq_zip_pad, hlen, List.drop_length]
  simp

theorem zip_map_lookup (r : Row) (hnd : (r.map Prod.fst).Nodup) :
    (r.map Prod.fst).zip ((r.map Prod.fst).map fun h => (rowGet? r h).getD "") = r := by
  induction r with
  | nil => rfl
  | cons p r ih =>
      obtain ⟨k, v⟩ := p
      simp only [List.map_cons, List.nodup_cons] at hnd ⊢
      obtain ⟨hkn, hnd'⟩ := hnd
      rw [List.zip_cons_cons]
      have hk : rowGet? ((k, v) :: r) k = some v := by
        simp [rowGet?, List.lookup_cons]
      congr 1
      · rw [hk]
        rfl
      · have hmap : (r.map Prod.fst).map (fun h => (rowGet? ((k, v) :: r) h).getD "")
            = (r.map Prod.fst).map fun h => (rowGet? r h).getD "" := by
          refine List.map_congr_left fun h hh => ?_
          have hne : h ≠ k := fun he => hkn (he ▸ hh)
          have hbeq : (h == k) = false := by simp [hne]
          simp [rowGet?, List.lookup_cons, hbeq]
        rw [hmap, ih hnd']

theorem mkRow_roundTrip (headers : List String) (r : Row)
    (hkeys : r.map Prod.fst = headers) (hnd : headers.Nodup) :
    mkRow headers (headers.map fun h => (rowGet? r h).getD "") = r := by
  subst hkeys
  rw [mkRow_full _ _ (by simp)]
  exact zip_map_lookup r hnd

theorem filterMap_eq_self_of {α : Type} (l : List α) (f : α → Option α)
    (h : ∀ a ∈ l, f a = some a) : l.filterMap f = l := by
  induction l with
  | nil => rfl
  | cons a t ih =>
      rw [List.filterMap_cons, h a (by simp),
        ih (fun x hx => h x (by simp [hx]))]

theorem mem_of_rowGet?_eq_some {k v : String} {r : Row}
    (h : rowGet? r k = some v) : (k, v) ∈ r := by
  induction r with
  | nil => simp [rowGet?] at h
  | cons p t ih =>
      obtain ⟨k', v'⟩ := p
      rw [rowGet?, List.lookup_cons] at h
      cases hbe : (k == k') with
      | true =>
          rw [hbe] at h
          have hkk : k = k' := by simpa using hbe
          have h2 : some v' = some v := h
          injection h2 with hv
          subst hkk
          subst hv
          simp
      | false =>
          rw [hbe] at h
          have h2 : List.lookup k t = some v := h
          exact List.mem_cons.mpr (.inr (ih h2))

/-! ### Assembly of the round-trip -/

theorem escapeCsvField_eq_self (v : String)
    (h : ∀ c ∈ v.data, c ≠ ',' ∧ c ≠ '"' ∧ c ≠ '\n') : escapeCsvField v = v := by
  unfold escapeCsvField
  rw [if_neg]
  intro hq
  unfold needsQuoting at hq
  rw [List.any_eq_true] at hq
  obtain ⟨c, hc, hcc⟩ := hq
  have hfree := h c hc
  simp only [Bool.or_eq_true, decide_eq_true_eq] at hcc
  rcases hcc with (h1 | h1) | h1
  · exact hfree.2.1 h1
  · exact hfree.1 h1
  · exact hfree.2.2 h1

theorem mem_escapeCsvField {c : Char} {v : String}
    (h : c ∈ (escapeCsvField v).data) : c ∈ v.data ∨ c = '"' := by
  rw [escapeCsvField_data] at h
  split at h
  · rcases List.mem_cons.mp h with h1 | h1
    · exact .inr h1
    · rcases List.mem_append.mp h1 with h2 | h2
      · exact .inl (mem_of_mem_doubleQuotes h2)
      · exact .inr (by simpa using h2)
  · exact .inl h

theorem serializeRowLine_data (headers : List String) (row : Row) :
    (serializeRowLine headers row).data
      = joinWith [','] ((headers.map fun h => (rowGet? row h).getD "").map
          fun v => (escapeCsvField v).data) := by
  unfold serializeRowLine
  rw [intercalate_data, List.map_map, List.map_map]
  rfl

theorem parseLine_serializeRowLine (headers : List String) (row : Row)
    (hne : headers ≠ []) :
    parseLine (serializeRowLine headers row)
      = headers.map fun h => (rowGet? row h).getD "" := by
  unfold parseLine
  rw [serializeRowLine_data, parseLineChars_joinWith_esc _ (by simpa using hne),
    List.map_map, show ((fun cs => (⟨cs⟩ : String)) ∘ String.data) = id from rfl,
    List.map_id]

theorem parseLine_headerLine (headers : List String) (hne : headers ≠ [])
    (hh : ∀ h ∈ headers, ∀ c ∈ h.data, c ≠ ',' ∧ c ≠ '"' ∧ c ≠ '\n' ∧ c ≠ '\r') :
    parseLine (String.intercalate "," headers) = headers := by
  unfold parseLine
  have hd : (String.intercalate "," headers).data
      = joinWith [','] (headers.map fun v => (escapeCsvField v).data) := by
    rw [intercalate_data]
    congr 1
    refine List.map_congr_left fun h hmem => ?_
    rw [escapeCsvField_eq_self h (fun c hc =>
      ⟨(hh h hmem c hc).1, (hh h hmem c hc).2.1, (hh h hmem c hc).2.2.1⟩)]
  rw [hd, parseLineChars_joinWith_esc headers hne, List.map_map,
    show ((fun cs => (⟨cs⟩ : String)) ∘ String.data) = id from rfl, List.map_id]

theorem rowVal_clean (row : Row)
    (hv : ∀ p ∈ row, ∀ c ∈ (Prod.snd p).data, c ≠ '\n' ∧ c ≠ '\r') (h : String) :
    ∀ c ∈ ((rowGet? row h).getD "").data, c ≠ '\n' ∧ c ≠ '\r' := by
  intro c hc
  cases hg : rowGet? row h with
  | none => rw [hg] at hc; simp at hc
  | some v =>
      rw [hg] at hc
      exact hv (h, v) (mem_of_rowGet?_eq_some hg) c hc

theorem serializeRowLine_clean (headers : List String) (row : Row)
    (hv : ∀ p ∈ row, ∀ c ∈ (Prod.snd p).data, c ≠ '\n' ∧ c ≠ '\r') :
    ∀ c ∈ (serializeRowLine headers row).data, c ≠ '\r' ∧ c ≠ '\n' := by
  intro c hc
  rw [serializeRowLine_data] at hc
  rcases mem_joinWith hc with h | ⟨l, hl, hcl⟩
  · have hcc : c = ',' := by simpa using h
    subst hcc
    exact ⟨by decide, by decide⟩
  · obtain ⟨v, hvmem, rfl⟩ := List.mem_map.mp hl
    obtain ⟨h0, hh0, rfl⟩ := List.mem_map.mp hvmem
    rcases mem_escapeCsvField hcl with h1 | h1
    · have hclean := rowVal_clean row hv h0 c h1
      exact ⟨hclean.2, hclean.1⟩
    · subst h1
      exact ⟨by decide, by decide⟩

theorem headerLine_clean (headers : List String)
    (hh : ∀ h ∈ headers, ∀ c ∈ h.data, c ≠ ',' ∧ c ≠ '"' ∧ c ≠ '\n' ∧ c ≠ '\r') :
    ∀ c ∈ (String.intercalate "," headers).data, c ≠ '\r' ∧ c ≠ '\n' := by
  intro c hc
  rw [intercalate_data] at hc
  rcases mem_joinWith hc with h | ⟨l, hl, hcl⟩
  · have hcc : c = ',' := by simpa using h
    subst hcc
    exact ⟨by decide, by decide⟩
  · obtain ⟨h0, hh0, rfl⟩ := List.mem_map.mp hl
    have hclean := hh h0 hh0 c hcl
    exact ⟨hclean.2.2.2, hclean.2.2.1⟩

theorem serializeCsv_data (headers : List String) (rows : List Row) :
    (serializeCsv headers rows).data
      = joinWith ['\n']
          ((String.intercalate "," headers :: rows.map (serializeRowLine headers)).map
            String.data) := by
  unfold serializeCsv
  rw [intercalate_data]

/-- **C2 (amended).** The round-trip law holds for the field contents the
escaper actually protects — commas and quotes — but not for line breaks:
for any non-empty duplicate-free header list whose names avoid comma,
quote, CR and LF, and any non-empty row list over those headers whose
values avoid CR and LF, such that the serialized text is its own trim
and no serialized data line is blank, parsing the export returns exactly
the original headers and rows. (Values with embedded newlines break the
law — see the counterexample — because the parser splits lines before it
looks at quotes.) -/
theorem csv_round_trip (headers : List String) (rows : List Row)
    (hrne : rows ≠ []) (hhne : headers ≠ []) (hnd : headers.Nodup)
    (hh : ∀ h ∈ headers, ∀ c ∈ h.data, c ≠ ',' ∧ c ≠ '"' ∧ c ≠ '\n' ∧ c ≠ '\r')
    (hkeys : ∀ r ∈ rows, r.map Prod.fst = headers)
    (hv : ∀ r ∈ rows, ∀ p ∈ r, ∀ c ∈ (Prod.snd p).data, c ≠ '\n' ∧ c ≠ '\r')
    (htrim : jsTrim (serializeCsv headers rows) = serializeCsv headers rows)
    (hblank : ∀ r ∈ rows, ((jsTrim (serializeRowLine headers r)).data.isEmpty) = false) :
    parseCsv (serializeCsv headers rows) = .ok (headers, rows) := by
  have hsplit : splitLines (jsTrim (serializeCsv headers rows))
      = String.intercalate "," headers :: rows.map (serializeRowLine headers) := by
    rw [htrim]
    refine splitLines_joinWith _ (by simp) ?_ _ (serializeCsv_data headers rows)
    intro l hl c hc
    rcases List.mem_cons.mp hl with h | h
    · subst h
      exact headerLine_clean headers hh c hc
    · obtain ⟨r, hr, rfl⟩ := List.mem_map.mp h
      exact serializeRowLine_clean headers r (hv r hr) c hc
  have hlpos : rows.map (serializeRowLine headers) ≠ [] := by simpa using hrne
  simp only [parseCsv, hsplit]
  rw [if_neg (by
    simp only [List.length_cons, Nat.not_lt]
    have := List.length_pos.mpr hlpos
    omega)]
  have hhead : parseLine ((String.intercalate "," headers
      :: rows.map (serializeRowLine headers)).getD 0 "") = headers := by
    simpa using parseLine_headerLine headers hhne hh
  rw [hhead]
  have hdrop : (String.intercalate "," headers
      :: rows.map (serializeRowLine headers)).drop 1
        = rows.map (serializeRowLine headers) := rfl
  rw [hdrop, List.filterMap_map]
  have hself : ∀ r ∈ rows,
      ((fun line => if (jsTrim line).data.isEmpty then none
          else some (mkRow headers (parseLine line))) ∘ serializeRowLine headers) r
        = some r := by
    intro r hr
    simp only [Function.comp_apply]
    rw [if_neg (by rw [hblank r hr]; exact Bool.false_ne_true)]
    rw [parseLine_serializeRowLine headers r hhne,
      mkRow_roundTrip headers r (hkeys r hr) hnd]
  rw [filterMap_eq_self_of rows _ hself]

/-- Rows with commas and quotes in their values, for the C2 witness. -/
def c2Rows : List Row :=
  [[("id", "1"), ("Response Text", "He said \"hi\", ok")],
   [("id", "2"), ("Response Text", "plain")]]

/-- Witness for C2 (amended): a concrete export with quoted commas and
doubled quotes parses back to exactly the original headers and rows. -/
theorem csv_round_trip_witness :
    parseCsv (serializeCsv ["id", "Response Text"] c2Rows)
      = .ok (["id", "Response Text"], c2Rows) :=
  csv_round_trip ["id", "Response Text"] c2Rows (by decide) (by decide) (by decide)
    (by decide) (by decide) (by decide) (by decide) (by decide)

/-- **C2 counterexample.** A field value with an embedded newline — which
the claim explicitly includes — does not round-trip: the serializer
quotes it, but the parser splits the text into lines before honoring
quotes, so the single row comes back as two. -/
theorem csv_round_trip_newline_counterexample :
    parseCsv (serializeCsv ["a"] [[("a", "x\ny")]])
        ≠ .ok (["a"], [[("a", "x\ny")]]) ∧
    parseCsv (serializeCsv ["a"] [[("a", "x\ny")]])
        = .ok (["a"], [[("a", "x")], [("a", "y")]]) := by
  exact ⟨by decide, by decide⟩

end ThematicCoder
